import Mathlib

/-!
Verification of the znunzip repository: the zniconv streaming charset
converter (`Reader` in the zniconv package) and the ZIP-extraction CLI
(`znunzip.go` and its two variants).

The Conversion Engine (glibc iconv) is modelled as an abstract greedy
decoder `Engine`: a function classifying a byte buffer into
"first multibyte unit of length k decoding to `out`", "invalid", or
"incomplete".  `iconvFuel` replays the POSIX iconv(3) buffer contract on
top of it: consume whole units greedily, stop with E2BIG when the next
unit's output does not fit, EILSEQ on an invalid unit, EINVAL on an
incomplete unit at the end of the input window.

The `Reader` from src (fields c, r, buf, left, err, goff, bufSize and
methods Read / Reset / refill / fail) is embedded as `RState` with
`readGo` (the `Read` loop, fueled), `refill`, `RState.fail`,
`RState.reset`, and `drainGo` (`ReadAll`, i.e. io.Copy's pull loop).
Input streams are embedded as explicit state machines; `chunksRead` is
the faithful model of a reader that serves a fixed list of chunks
(delivering at most the free buffer space per call, keeping leftovers).
-/

set_option autoImplicit false

namespace Znunzip

/-- Outcome of the engine examining the front of an input buffer. -/
inductive DecodeStep where
  | ok (k : Nat) (out : List Nat)
  | invalid
  | incomplete
deriving DecidableEq, Repr

/-- The Conversion Engine: glibc iconv viewed as a greedy unit decoder. -/
structure Engine where
  decodeOne : List Nat → DecodeStep

/-- The three iconv errno values the Go code distinguishes
(syscall.E2BIG, syscall.EILSEQ, syscall.EINVAL). -/
inductive IErr where
  | e2big
  | eilseq
  | einval
deriving DecidableEq, Repr

/-- POSIX iconv(3) on a fixed input window `inp` and output capacity
`avail`: greedily convert whole units; returns bytes consumed, bytes
produced, and the errno (none on full consumption).  Fueled; fuel
`inp.length` always suffices for engines whose units are nonempty. -/
def iconvFuel (E : Engine) : Nat → List Nat → Nat → Nat × List Nat × Option IErr
  | 0, _, _ => (0, [], none)
  | fuel + 1, inp, avail =>
    match inp with
    | [] => (0, [], none)
    | _ :: _ =>
      match E.decodeOne inp with
      | .invalid => (0, [], some .eilseq)
      | .incomplete => (0, [], some .einval)
      | .ok k out =>
        if avail < out.length then (0, [], some .e2big)
        else
          let r := iconvFuel E fuel (inp.drop k) (avail - out.length)
          (k + r.1, out ++ r.2.1, r.2.2)

/-- The `iconv` helper of the Go source, on buffers `in`, `out`:
returns `(inOff, outOff, err)`. -/
def iconvRun (E : Engine) (inp : List Nat) (avail : Nat) : Nat × List Nat × Option IErr :=
  iconvFuel E inp.length inp avail

/-- Reference decoding of a complete byte sequence: the concatenated
outputs of its units, `none` if the sequence is not a clean sequence of
complete valid units.  Fueled by list length. -/
def decodeList (E : Engine) : Nat → List Nat → Option (List Nat)
  | _, [] => some []
  | 0, _ :: _ => none
  | fuel + 1, a :: l =>
    match E.decodeOne (a :: l) with
    | .ok k out =>
      match decodeList E fuel ((a :: l).drop k) with
      | some rest => some (out ++ rest)
      | none => none
    | _ => none

/-- Full decoding of a byte sequence under engine `E`. -/
def decodeAll (E : Engine) (l : List Nat) : Option (List Nat) :=
  decodeList E l.length l

/-- Well-formedness of an engine with maximal unit input length `K` and
maximal unit output length `m`: units are nonempty, bounded, determined
by their own bytes (no lookahead), and their strict prefixes are
incomplete. -/
structure EngineWF (E : Engine) (K m : Nat) : Prop where
  kpos : ∀ l k o, E.decodeOne l = .ok k o → 0 < k
  kle : ∀ l k o, E.decodeOne l = .ok k o → k ≤ l.length
  kK : ∀ l k o, E.decodeOne l = .ok k o → k ≤ K
  om : ∀ l k o, E.decodeOne l = .ok k o → o.length ≤ m
  det : ∀ l k o, E.decodeOne l = .ok k o → ∀ s, E.decodeOne (l.take k ++ s) = .ok k o
  pre : ∀ l k o, E.decodeOne l = .ok k o → ∀ t, t < k → E.decodeOne (l.take t) = .incomplete

/-- Signal returned by one call to the underlying input stream's Read:
no error, io.EOF, or a real read error. -/
inductive Sig where
  | ok
  | eof
  | fail
deriving DecidableEq, Repr

/-- The `Err` values the Reader can latch (`ErrCode` plus the data that
goes into the formatted Reason). -/
inductive ZErr where
  | eilseq (window : List Nat) (off : Nat)
  | einval (window : List Nat) (off : Nat)
  | eio
  | eunknown (off : Nat)
deriving DecidableEq, Repr

/-- The contents of the Reader's `err` field: io.EOF or a latched `Err`. -/
inductive RStatus where
  | eof
  | zerr (e : ZErr)
deriving DecidableEq, Repr

/-- `r.err != nil && r.err != io.EOF` of the Go source. -/
def isFatal : Option RStatus → Bool
  | some (.zerr _) => true
  | _ => false

/-- The Reader's mutable state (fields left, err, goff, r, bufSize of
the Go struct; the backing array `buf` is represented by its capacity
`bufSize`, and the engine handle `c` is passed separately). -/
structure RState (σ : Type) where
  left : List Nat
  err : Option RStatus
  goff : Nat
  src : σ
  bufSize : Nat
deriving Repr, DecidableEq

/-- `Reader.refill`: copy pending bytes to the front of the buffer,
read more from the stream into the free space, record EOF or a read
error.  `rd` is the stream's Read: given stream state and free space it
returns the bytes delivered (at most the space), a signal, and the new
stream state. -/
def refill {σ : Type} (rd : σ → Nat → List Nat × Sig × σ) (r : RState σ) : RState σ :=
  match r.err with
  | some _ => r
  | none =>
    let i := min r.left.length r.bufSize
    let res := rd r.src (r.bufSize - i)
    { r with
      left := r.left.take r.bufSize ++ res.1
      src := res.2.2
      err :=
        match res.2.1 with
        | .ok => none
        | .eof => some .eof
        | .fail => some (.zerr .eio) }

/-- `Reader.fail`: latch an error unless a non-EOF error is already
latched. -/
def RState.fail {σ : Type} (r : RState σ) (e : ZErr) : RState σ :=
  match r.err with
  | some (.zerr _) => r
  | _ => { r with err := some (.zerr e) }

/-- `capped`: the first ten bytes of the offending window. -/
def capped (b : List Nat) : List Nat :=
  if b.length < 10 then b else b.take 10

/-- `Reader.Read` with output buffer size `n`: the conversion loop,
fueled by the number of loop iterations.  Accumulates produced bytes in
`acc` (the portion of `b` already filled); returns the produced bytes,
the returned error value, and the reader state after the call, or
`none` if `fuel` iterations did not finish the loop. -/
def readGo {σ : Type} (E : Engine) (rd : σ → Nat → List Nat × Sig × σ) (n : Nat) :
    Nat → RState σ → List Nat → Option (List Nat × Option RStatus × RState σ)
  | 0, _, _ => none
  | fuel + 1, r, acc =>
    if acc.length < n then
      let r1 := refill rd r
      if r1.left.isEmpty || isFatal r1.err then some (acc, r1.err, r1)
      else
        let t := iconvRun E r1.left (n - acc.length)
        let r2 : RState σ := { r1 with goff := r1.goff + t.1, left := r1.left.drop t.1 }
        let acc2 := acc ++ t.2.1
        match t.2.2 with
        | none => readGo E rd n fuel r2 acc2
        | some .e2big => some (acc2, none, r2)
        | some .eilseq =>
          readGo E rd n fuel (r2.fail (.eilseq (capped r2.left) r2.goff)) acc2
        | some .einval =>
          match r2.err with
          | some .eof => readGo E rd n fuel (r2.fail (.einval (capped r2.left) r2.goff)) acc2
          | _ => readGo E rd n fuel r2 acc2
    else
      some (acc, r.err, r)

/-- `Reader.Reset`: rebind to a new input source, clearing pending
bytes, the latched error and the offset (the engine-state reset
`iconv(cd, nil, ...)` always succeeds for a live glibc descriptor, so
the failure branch of the source is not taken). -/
def RState.reset {σ σ' : Type} (r : RState σ) (src' : σ') : RState σ' :=
  { left := [], err := none, goff := 0, src := src', bufSize := r.bufSize }

/-- `NewReader` state: fresh converter over stream state `src`. -/
def mkReader {σ : Type} (bufSize : Nat) (src : σ) : RState σ :=
  { left := [], err := none, goff := 0, src := src, bufSize := bufSize }

/-- `Reader.ReadAll` (io.Copy's loop): call Read with output capacity
`n` repeatedly, concatenating results, until Read returns io.EOF
(success) or a real error.  `F` is the fuel given to each Read, the
outer fuel counts Read calls. -/
def drainGo {σ : Type} (E : Engine) (rd : σ → Nat → List Nat × Sig × σ) (n F : Nat) :
    Nat → RState σ → Option (List Nat × Option ZErr)
  | 0, _ => none
  | fuel + 1, r =>
    match readGo E rd n F r [] with
    | none => none
    | some (bs, ret, r') =>
      match ret with
      | none =>
        match drainGo E rd n F fuel r' with
        | some p => some (bs ++ p.1, p.2)
        | none => none
      | some .eof => some (bs, none)
      | some (.zerr e) => some (bs, some e)

/-- The engine-dispatch part of one `Read` loop iteration (the code
after the refill and the empty/fatal break), written out as a separate
function so the loop analysis can reason about it in isolation.  `r1`
is the post-refill state, `g` the remaining loop fuel. -/
def readStepEngine {σ : Type} (E : Engine) (rd : σ → Nat → List Nat × Sig × σ) (n g : Nat)
    (r1 : RState σ) (acc : List Nat) : Option (List Nat × Option RStatus × RState σ) :=
  let t := iconvRun E r1.left (n - acc.length)
  let r2 : RState σ := { r1 with goff := r1.goff + t.1, left := r1.left.drop t.1 }
  let acc2 := acc ++ t.2.1
  match t.2.2 with
  | none => readGo E rd n g r2 acc2
  | some .e2big => some (acc2, none, r2)
  | some .eilseq => readGo E rd n g (r2.fail (.eilseq (capped r2.left) r2.goff)) acc2
  | some .einval =>
    match r2.err with
    | some .eof => readGo E rd n g (r2.fail (.einval (capped r2.left) r2.goff)) acc2
    | _ => readGo E rd n g r2 acc2

/-- A stream serving a fixed list of chunks, one chunk per Read call,
delivering at most the requested space and keeping the remainder of a
chunk for the next call; end of the list is io.EOF. -/
def chunksRead : List (List Nat) → Nat → List Nat × Sig × List (List Nat)
  | [], _ => ([], .eof, [])
  | c :: rest, sp =>
    if c.length ≤ sp then (c, .ok, rest)
    else (c.take sp, .ok, c.drop sp :: rest)

/-- A stream that always returns zero bytes and no error (a stalled
io.Reader that never makes progress and never reports EOF). -/
def stallRead : Unit → Nat → List Nat × Sig × Unit :=
  fun _ _ => ([], .ok, ())

/-- Progress measure of a reader state over a chunk stream: undelivered
bytes, undelivered chunk count, one for a still-clear error field, and
pending bytes.  Every continuing iteration of the Read loop strictly
decreases it. -/
def M (r : RState (List (List Nat))) : Nat :=
  (r.src.flatten).length + r.src.length + (if r.err = none then 1 else 0) + r.left.length

/-- Invariant tying a reader state over a chunk stream to the decoded
tail `w` it still owes: the pending bytes followed by the undelivered
stream bytes decode cleanly to `w`, the buffer size is `B` and bounds
the pending bytes, and the error field is clear or a pure end-of-stream
marker with an exhausted stream. -/
abbrev LoopInv (E : Engine) (B : Nat) (r : RState (List (List Nat))) (w : List Nat) : Prop :=
  decodeAll E (r.left ++ r.src.flatten) = some w
    ∧ r.bufSize = B
    ∧ r.left.length ≤ B
    ∧ (r.err = none ∨ (r.err = some RStatus.eof ∧ r.src = []))

/-- Outcome specification of one `Read` call from an invariant state:
the call returns some prefix of the owed bytes, preserves the
invariant on the remainder, does not increase the progress measure,
and ends either in a clean end-of-stream (everything delivered) or in
an errorless partial return that made progress unless the output
window was already (nearly) full. -/
abbrev LoopConcl (E : Engine) (B n m : Nat) (w : List Nat) (r : RState (List (List Nat)))
    (acc : List Nat) (f : Nat) : Prop :=
  ∃ out ret r', readGo E chunksRead n f r acc = some (acc ++ out, ret, r')
    ∧ ∃ w', LoopInv E B r' w'
      ∧ w = out ++ w'
      ∧ M r' ≤ M r
      ∧ ((ret = some RStatus.eof ∧ r'.left = [] ∧ r'.src = [] ∧ w' = [])
         ∨ (ret = none
            ∧ (M r' < M r ∨ (out = [] ∧ (n ≤ acc.length ∨ n - acc.length < m)))
            ∧ (n < acc.length + out.length + m ∨ [] ∈ r.src)))

/-- A pull that never returns within any number of loop iterations. -/
def PullDiverges {σ : Type} (E : Engine) (rd : σ → Nat → List Nat × Sig × σ)
    (n : Nat) (r : RState σ) : Prop :=
  ∀ fuel, readGo E rd n fuel r [] = none

/-!
A small concrete well-formed engine for witnesses and counterexamples:
the two-byte fragment of UTF-8 validated to itself (ASCII bytes are
one-byte units, a lead byte in [192,256) followed by a continuation
byte in [128,192) is a two-byte unit; a bare continuation byte is
invalid; a bare lead byte is incomplete).  K = 2, m = 2.
-/

/-- Greedy unit classifier of the toy charset. -/
def toyDecode : List Nat → DecodeStep
  | [] => .incomplete
  | a :: rest =>
    if a < 128 then .ok 1 [a]
    else if a < 192 then .invalid
    else
      match rest with
      | [] => .incomplete
      | b :: _ => if 128 ≤ b ∧ b < 192 then .ok 2 [a, b] else .invalid

/-- The toy engine. -/
def toyE : Engine := ⟨toyDecode⟩

/-!
The extraction CLI (znunzip.go and the two unnamed variants).  The
filesystem is modelled by the trace of operations an entry's processing
performs, plus a flag recording whether `log.Panicf` was reached
(process termination with a non-zero status).  Injectable outcomes of
the system calls are collected in `SysEnv`.
-/

/-- A ZIP entry as the CLI sees it: raw name bytes, stored mode bits,
modification time. -/
structure Entry where
  name : List Nat
  mode : Nat
  mtime : Nat
deriving DecidableEq, Repr

/-- Outcomes of the external calls made while processing one entry:
the charset decoding of the name (`none` = decoder error) and
success/failure of each system call. -/
structure SysEnv where
  decodeRes : Option (List Nat)
  mkdirOk : Bool
  openOk : Bool
  createOk : Bool
  copyOk : Bool
  chmodOk : Bool
  chtimesOk : Bool
deriving DecidableEq, Repr

/-- Observable operations of the extraction layer. -/
inductive FsOp where
  | logName (n : List Nat)
  | mkdirAll (d : List Nat) (mode : Nat)
  | createFile (f : List Nat)
  | copyData (f : List Nat)
  | chmodOp (f : List Nat) (mode : Nat)
  | chtimesOp (f : List Nat) (t : Nat)
  | logWarn
deriving DecidableEq, Repr

/-- Operations that modify the filesystem (directory or file creation,
content writes, mode or time changes); logging does not. -/
def FsOp.isMutation : FsOp → Bool
  | .logName _ => false
  | .logWarn => false
  | _ => true

/-- `filepath.Split`: directory part up to and including the final
slash (byte 47), and the file part after it. -/
def splitPath (p : List Nat) : List Nat × List Nat :=
  let file := (p.reverse.takeWhile (fun c => c ≠ 47)).reverse
  (p.take (p.length - file.length), file)

/-- The open/create/copy/chmod/chtimes tail of `unzipOne`: returns the
trace and whether a `log.Panicf` terminated processing.  chmod and
chtimes failures only log a warning and continue. -/
def extractFile (env : SysEnv) (e : Entry) (fn : List Nat) : List FsOp × Bool :=
  if !env.openOk then ([], true)
  else if !env.createOk then ([.createFile fn], true)
  else if !env.copyOk then ([.createFile fn, .copyData fn], true)
  else
    ([.createFile fn, .copyData fn]
      ++ (if env.chmodOk then [.chmodOp fn e.mode] else [.chmodOp fn e.mode, .logWarn])
      ++ (if env.chtimesOk then [.chtimesOp fn e.mtime] else [.chtimesOp fn e.mtime, .logWarn]),
     false)

/-- `unzipOne` of znunzip.go: decode the name with the x/text decoder,
falling back to the raw name on a decoding error; in list mode just log
the name; otherwise create the directory component with mode
`entryMode | 0o770`, then extract the file.  `ext` is the `-x` flag
(equivalently, `!testOnly` of the `-t` variant). -/
def unzipOne (ext : Bool) (env : SysEnv) (e : Entry) : List FsOp × Bool :=
  let fn := match env.decodeRes with | some s => s | none => e.name
  if !ext then ([.logName fn], false)
  else
    let d := (splitPath fn).1
    let f := (splitPath fn).2
    if d ≠ [] then
      if !env.mkdirOk then ([.mkdirAll d (e.mode ||| 0o770)], true)
      else if f = [] then ([.mkdirAll d (e.mode ||| 0o770)], false)
      else
        let rest := extractFile env e fn
        (.mkdirAll d (e.mode ||| 0o770) :: rest.1, rest.2)
    else
      extractFile env e fn

/-- `convertName` of the zniconv-based variant: reset the shared
converter onto the raw name and ReadAll; a conversion error is a
`log.Panicf`.  `res` is the conversion outcome, the Bool records the
panic. -/
def convertName (res : Option (List Nat)) (raw : List Nat) : List Nat × Bool :=
  match res with
  | some s => (s, false)
  | none => (raw, true)

/-- Operations of the staged-promotion epilogue of `unzip`. -/
inductive PromOp where
  | lstat (n : List Nat)
  | rename (n : List Nat)
deriving DecidableEq, Repr

/-- First loop of the promotion epilogue: `os.Lstat("../" + name)` for
each staged top-level name in order; the first name that already exists
at the destination is a `log.Panicf`. -/
def checkLoop (dest : List Nat → Bool) : List (List Nat) → List PromOp × Bool
  | [] => ([], false)
  | n :: rest =>
    if dest n then ([.lstat n], true)
    else
      let r := checkLoop dest rest
      (.lstat n :: r.1, r.2)

/-- The promotion epilogue of `unzip`: check every staged name against
the destination, then (only if no name existed) rename them all. -/
def promote (dest : List Nat → Bool) (names : List (List Nat)) : List PromOp × Bool :=
  let c := checkLoop dest names
  if c.2 then (c.1, true)
  else (c.1 ++ names.map .rename, false)

/-- Recognizer of rename operations. -/
def PromOp.isRename : PromOp → Bool
  | .rename _ => true
  | .lstat _ => false

/-!  Helper lemmas. -/

theorem checkLoop_ops_lstat (dest : List Nat → Bool) (names : List (List Nat)) :
    ((checkLoop dest names).1.all fun op => !op.isRename) = true := by
  induction names with
  | nil => rfl
  | cons n rest ih =>
    unfold checkLoop
    by_cases h : dest n
    · simp [h, PromOp.isRename]
    · rw [if_neg (by simp [h])]
      simp only [List.all_cons, ih, Bool.and_true]
      rfl

theorem checkLoop_conflict (dest : List Nat → Bool) (names : List (List Nat))
    (h : names.any dest = true) : (checkLoop dest names).2 = true := by
  induction names with
  | nil => simp at h
  | cons n rest ih =>
    unfold checkLoop
    by_cases hn : dest n
    · simp [hn]
    · simp only [List.any_cons, hn, Bool.false_or] at h
      simp [hn, ih h]

theorem checkLoop_clean (dest : List Nat → Bool) (names : List (List Nat))
    (h : names.any dest = false) : checkLoop dest names = (names.map .lstat, false) := by
  induction names with
  | nil => rfl
  | cons n rest ih =>
    simp only [List.any_cons, Bool.or_eq_false_iff] at h
    unfold checkLoop
    simp [h.1, ih h.2]

theorem flatten_map_singleton (l : List Nat) : (l.map fun b => [b]).flatten = l := by
  induction l with
  | nil => rfl
  | cons a r ih => simp [ih]

theorem take_eq_take_append (l : List Nat) (k t : Nat) (h : k ≤ t) :
    l.take t = l.take k ++ (l.take t).drop k := by
  conv_lhs => rw [← List.take_append_drop k (l.take t)]
  rw [List.take_take, min_eq_left h]

/-- Any fuel at least the input length evaluates `iconvFuel` like
`iconvRun`, provided units are nonempty. -/
theorem iconvFuel_irrel (E : Engine)
    (hk : ∀ l k o, E.decodeOne l = .ok k o → 0 < k) :
    ∀ (N : Nat) (inp : List Nat), inp.length ≤ N → ∀ (f : Nat), inp.length ≤ f →
      ∀ avail, iconvFuel E f inp avail = iconvRun E inp avail := by
  intro N
  induction N with
  | zero =>
    intro inp h f _ avail
    have h0 : inp = [] := List.length_eq_zero.mp (Nat.le_zero.mp h)
    subst h0
    cases f <;> rfl
  | succ N ihN =>
    intro inp h f hf avail
    cases inp with
    | nil => cases f <;> rfl
    | cons a rest =>
      obtain ⟨g, rfl⟩ : ∃ g, f = g + 1 := ⟨f - 1, by simp at hf; omega⟩
      show iconvFuel E (g + 1) (a :: rest) avail
          = iconvFuel E (rest.length + 1) (a :: rest) avail
      simp only [iconvFuel]
      cases hd : E.decodeOne (a :: rest) with
      | invalid => simp [hd]
      | incomplete => simp [hd]
      | ok k o =>
        simp only [hd]
        by_cases hav : avail < o.length
        · simp [hav]
        · have hk1 : 0 < k := hk _ _ _ hd
          have hdl : ((a :: rest).drop k).length ≤ N := by
            simp only [List.length_drop, List.length_cons]
            simp only [List.length_cons] at h
            omega
          have e1 : iconvFuel E g ((a :: rest).drop k) (avail - o.length)
              = iconvRun E ((a :: rest).drop k) (avail - o.length) := by
            apply ihN _ hdl
            simp only [List.length_drop, List.length_cons]
            simp only [List.length_cons] at hf
            omega
          have e2 : iconvFuel E rest.length ((a :: rest).drop k) (avail - o.length)
              = iconvRun E ((a :: rest).drop k) (avail - o.length) := by
            apply ihN _ hdl
            simp only [List.length_drop, List.length_cons]
            omega
          simp [hav, e1, e2]

theorem iconvRun_nil (E : Engine) (avail : Nat) : iconvRun E [] avail = (0, [], none) := rfl

theorem iconvRun_incomplete (E : Engine) {inp : List Nat} (h0 : inp ≠ [])
    (h : E.decodeOne inp = .incomplete) (avail : Nat) :
    iconvRun E inp avail = (0, [], some .einval) := by
  cases inp with
  | nil => exact absurd rfl h0
  | cons a rest =>
    show iconvFuel E (rest.length + 1) (a :: rest) avail = _
    simp [iconvFuel, h]

theorem iconvRun_invalid (E : Engine) {inp : List Nat} (h0 : inp ≠ [])
    (h : E.decodeOne inp = .invalid) (avail : Nat) :
    iconvRun E inp avail = (0, [], some .eilseq) := by
  cases inp with
  | nil => exact absurd rfl h0
  | cons a rest =>
    show iconvFuel E (rest.length + 1) (a :: rest) avail = _
    simp [iconvFuel, h]

theorem iconvRun_e2big (E : Engine) {inp : List Nat} {k : Nat} {o : List Nat}
    (h0 : inp ≠ []) (h : E.decodeOne inp = .ok k o) {avail : Nat}
    (hav : avail < o.length) : iconvRun E inp avail = (0, [], some .e2big) := by
  cases inp with
  | nil => exact absurd rfl h0
  | cons a rest =>
    show iconvFuel E (rest.length + 1) (a :: rest) avail = _
    simp [iconvFuel, h, hav]

theorem iconvRun_ok_step (E : Engine)
    (hk : ∀ l k o, E.decodeOne l = .ok k o → 0 < k)
    {inp : List Nat} {k : Nat} {o : List Nat}
    (h0 : inp ≠ []) (h : E.decodeOne inp = .ok k o) {avail : Nat}
    (hav : ¬ avail < o.length) :
    iconvRun E inp avail =
      (k + (iconvRun E (inp.drop k) (avail - o.length)).1,
       o ++ (iconvRun E (inp.drop k) (avail - o.length)).2.1,
       (iconvRun E (inp.drop k) (avail - o.length)).2.2) := by
  cases inp with
  | nil => exact absurd rfl h0
  | cons a rest =>
    show iconvFuel E (rest.length + 1) (a :: rest) avail = _
    have hk1 : 0 < k := hk _ _ _ h
    have e1 : iconvFuel E rest.length ((a :: rest).drop k) (avail - o.length)
        = iconvRun E ((a :: rest).drop k) (avail - o.length) := by
      apply iconvFuel_irrel E hk rest.length
      · simp only [List.length_drop, List.length_cons]; omega
      · simp only [List.length_drop, List.length_cons]; omega
    simp [iconvFuel, h, hav, e1]

/-- Any fuel at least the input length evaluates `decodeList` like
`decodeAll`, provided units are nonempty. -/
theorem decodeList_irrel (E : Engine)
    (hk : ∀ l k o, E.decodeOne l = .ok k o → 0 < k) :
    ∀ (N : Nat) (inp : List Nat), inp.length ≤ N → ∀ (f : Nat), inp.length ≤ f →
      decodeList E f inp = decodeAll E inp := by
  intro N
  induction N with
  | zero =>
    intro inp h f _
    have h0 : inp = [] := List.length_eq_zero.mp (Nat.le_zero.mp h)
    subst h0
    cases f <;> rfl
  | succ N ihN =>
    intro inp h f hf
    cases inp with
    | nil => cases f <;> rfl
    | cons a rest =>
      obtain ⟨g, rfl⟩ : ∃ g, f = g + 1 := ⟨f - 1, by simp at hf; omega⟩
      show decodeList E (g + 1) (a :: rest) = decodeList E (rest.length + 1) (a :: rest)
      simp only [decodeList]
      cases hd : E.decodeOne (a :: rest) with
      | invalid => rfl
      | incomplete => rfl
      | ok k o =>
        have hk1 : 0 < k := hk _ _ _ hd
        have hdl : ((a :: rest).drop k).length ≤ N := by
          simp only [List.length_drop, List.length_cons]
          simp only [List.length_cons] at h
          omega
        have e1 : decodeList E g ((a :: rest).drop k) = decodeAll E ((a :: rest).drop k) := by
          apply ihN _ hdl
          simp only [List.length_drop, List.length_cons]
          simp only [List.length_cons] at hf
          omega
        have e2 : decodeList E rest.length ((a :: rest).drop k)
            = decodeAll E ((a :: rest).drop k) := by
          apply ihN _ hdl
          simp only [List.length_drop, List.length_cons]
          omega
        simp [e1, e2]

theorem decodeAll_nil (E : Engine) : decodeAll E [] = some [] := rfl

theorem decodeAll_cons (E : Engine)
    (hk : ∀ l k o, E.decodeOne l = .ok k o → 0 < k)
    {l : List Nat} {k : Nat} {o : List Nat}
    (h0 : l ≠ []) (h : E.decodeOne l = .ok k o) :
    decodeAll E l = (decodeAll E (l.drop k)).map (o ++ ·) := by
  cases l with
  | nil => exact absurd rfl h0
  | cons a rest =>
    show decodeList E (rest.length + 1) (a :: rest) = _
    have hk1 : 0 < k := hk _ _ _ h
    have e1 : decodeList E rest.length ((a :: rest).drop k)
        = decodeAll E ((a :: rest).drop k) := by
      apply decodeList_irrel E hk rest.length
      · simp only [List.length_drop, List.length_cons]; omega
      · simp only [List.length_drop, List.length_cons]; omega
    simp only [decodeList, h, e1]
    cases decodeAll E ((a :: rest).drop k) <;> rfl

theorem decodeAll_inv (E : Engine)
    (hk : ∀ l k o, E.decodeOne l = .ok k o → 0 < k)
    {l w : List Nat} (h0 : l ≠ []) (hw : decodeAll E l = some w) :
    ∃ k o w', E.decodeOne l = .ok k o ∧ decodeAll E (l.drop k) = some w' ∧ w = o ++ w' := by
  cases l with
  | nil => exact absurd rfl h0
  | cons a rest =>
    have hw' : decodeList E (rest.length + 1) (a :: rest) = some w := hw
    cases hd : E.decodeOne (a :: rest) with
    | invalid => simp [decodeList, hd] at hw'
    | incomplete => simp [decodeList, hd] at hw'
    | ok k o =>
      refine ⟨k, o, ?_⟩
      have := decodeAll_cons E hk (l := a :: rest) (List.cons_ne_nil a rest) hd
      rw [this] at hw
      cases hrest : decodeAll E ((a :: rest).drop k) with
      | none => rw [hrest] at hw; exact absurd hw (by simp)
      | some w' =>
        rw [hrest] at hw
        simp only [Option.map_some'] at hw
        exact ⟨w', rfl, rfl, (Option.some_injective _ hw).symm⟩

/-- One-step unfolding of the `Read` loop in terms of
`readStepEngine`. -/
theorem readGo_succ {σ : Type} (E : Engine) (rd : σ → Nat → List Nat × Sig × σ)
    (n g : Nat) (r : RState σ) (acc : List Nat) :
    readGo E rd n (g + 1) r acc
      = if acc.length < n then
          if (refill rd r).left.isEmpty || isFatal (refill rd r).err
            then some (acc, (refill rd r).err, refill rd r)
            else readStepEngine E rd n g (refill rd r) acc
        else some (acc, r.err, r) := rfl

theorem dec_take_of_ok {E : Engine} {K m : Nat} (HW : EngineWF E K m)
    {l : List Nat} {k : Nat} {o : List Nat} {t : Nat}
    (h : E.decodeOne l = .ok k o) (hkt : k ≤ t) : E.decodeOne (l.take t) = .ok k o := by
  have hdet := HW.det l k o h ((l.take t).drop k)
  rwa [← take_eq_take_append l k t hkt] at hdet

/-- Behaviour of one engine call on a prefix `rem.take t` of a fully
decodable byte sequence `rem`: the call consumes a whole number of
units, produces exactly their outputs within the output budget, never
reports an invalid sequence, reports success exactly on full
consumption, reports an incomplete sequence only when the prefix ends
inside a unit that continues past `t`, and reports output-buffer-full
only when the next unit's output cannot fit. -/
theorem iconv_valid_prefix {E : Engine} {K m : Nat} (HW : EngineWF E K m) :
    ∀ (t : Nat) (rem w : List Nat), decodeAll E rem = some w → t ≤ rem.length →
      ∀ avail : Nat,
      ∃ i o e w', iconvRun E (rem.take t) avail = (i, o, e)
        ∧ i ≤ t
        ∧ decodeAll E (rem.drop i) = some w'
        ∧ w = o ++ w'
        ∧ o.length ≤ avail
        ∧ e ≠ some .eilseq
        ∧ (e = none → i = t)
        ∧ (e = some .einval → t - i < K ∧ t < rem.length)
        ∧ (e = some .e2big → avail < o.length + m)
        ∧ (i = 0 → o = [])
        ∧ (i = 0 → t = 0 ∨ e = some .einval ∨ (e = some .e2big ∧ avail < m)) := by
  intro t
  induction t using Nat.strong_induction_on with
  | _ t ih =>
    intro rem w hw ht avail
    rcases Nat.eq_zero_or_pos t with rfl | htpos
    · refine ⟨0, [], none, w, ?_, Nat.le_refl 0, by simpa using hw, rfl, by simp, by simp,
        fun _ => rfl, by simp, by simp, fun _ => rfl, fun _ => Or.inl rfl⟩
      rw [List.take_zero, iconvRun_nil]
    · have hrem : rem ≠ [] := by
        intro h; subst h; simp at ht; omega
      obtain ⟨k₁, o₁, w₁, hd₁, hrest₁, hwsplit⟩ := decodeAll_inv E HW.kpos hrem hw
      have hk₁pos : 0 < k₁ := HW.kpos rem k₁ o₁ hd₁
      have hk₁le : k₁ ≤ rem.length := HW.kle rem k₁ o₁ hd₁
      have hk₁K : k₁ ≤ K := HW.kK rem k₁ o₁ hd₁
      have ho₁m : o₁.length ≤ m := HW.om rem k₁ o₁ hd₁
      have htne : rem.take t ≠ [] := by
        intro h
        have hlen := congrArg List.length h
        simp only [List.length_take, List.length_nil] at hlen
        omega
      by_cases hkt : t < k₁
      · have hinc : E.decodeOne (rem.take t) = .incomplete := HW.pre rem k₁ o₁ hd₁ t hkt
        refine ⟨0, [], some .einval, w, iconvRun_incomplete E htne hinc avail,
          Nat.zero_le t, by simpa using hw, rfl, by simp, by simp, by simp,
          fun _ => ⟨by omega, by omega⟩, by simp, fun _ => rfl,
          fun _ => Or.inr (Or.inl rfl)⟩
      · push_neg at hkt
        have hok : E.decodeOne (rem.take t) = .ok k₁ o₁ := dec_take_of_ok HW hd₁ hkt
        by_cases hav : avail < o₁.length
        · refine ⟨0, [], some .e2big, w, iconvRun_e2big E htne hok hav,
            Nat.zero_le t, by simpa using hw, rfl, by simp, by simp, by simp,
            by simp, fun _ => by simp; omega, fun _ => rfl,
            fun _ => Or.inr (Or.inr ⟨rfl, by omega⟩)⟩
        · have hstep := iconvRun_ok_step E HW.kpos htne hok hav
          have hdt : (rem.take t).drop k₁ = (rem.drop k₁).take (t - k₁) := List.drop_take ..
          obtain ⟨i', o', e', w'', heq, hi', hda, hsp, hol, hen, hnone, hein, he2, hz, hz2⟩ :=
            ih (t - k₁) (by omega) (rem.drop k₁) w₁ hrest₁
              (by simp only [List.length_drop]; omega) (avail - o₁.length)
          have hres : iconvRun E (rem.take t) avail = (k₁ + i', o₁ ++ o', e') := by
            rw [hstep, hdt, heq]
          refine ⟨k₁ + i', o₁ ++ o', e', w'', hres, by omega, ?_, ?_, ?_, hen, ?_, ?_, ?_, ?_, ?_⟩
          · have hdd : (rem.drop k₁).drop i' = rem.drop (k₁ + i') := by
              rw [List.drop_drop]
            rw [← hdd]
            exact hda
          · rw [hwsplit, hsp, List.append_assoc]
          · simp only [List.length_append]; omega
          · intro h; have := hnone h; omega
          · intro h
            obtain ⟨ha, hb⟩ := hein h
            constructor
            · omega
            · simp only [List.length_drop] at hb; omega
          · intro h
            have := he2 h
            simp only [List.length_append]; omega
          · intro h; omega
          · intro h; omega

/-- Effect of the engine-dispatch part of one loop iteration, from a
post-refill state `r1` with nonempty pending bytes that satisfies the
invariant.  `IH` is the induction hypothesis for states of smaller
measure. -/
theorem readStepEngine_spec {E : Engine} {K m : Nat} (HW : EngineWF E K m) (hm : 1 ≤ m)
    {B n : Nat} (hB : K ≤ B)
    (g : Nat) (r r1 : RState (List (List Nat))) (w : List Nat) (acc : List Nat)
    (hacc : acc.length < n)
    (hl1 : r1.left ≠ [])
    (hinv : LoopInv E B r1 w)
    (hM1 : M r1 < M r ∨ (M r1 ≤ M r ∧ (r1.src = [] ∨ r1.left.length = B)))
    (hnil : [] ∈ r1.src → [] ∈ r.src)
    (hg : M r ≤ g)
    (IH : ∀ (r2 : RState (List (List Nat))) (w2 acc2 : List Nat),
        M r2 < M r → LoopInv E B r2 w2 →
        (acc2.length < n ∨ r2.left = [] ∨ r2.err = none) →
        M r2 + 1 ≤ g →
        LoopConcl E B n m w2 r2 acc2 g) :
    ∃ out ret r', readStepEngine E chunksRead n g r1 acc = some (acc ++ out, ret, r')
      ∧ ∃ w', LoopInv E B r' w'
        ∧ w = out ++ w'
        ∧ M r' ≤ M r
        ∧ ((ret = some RStatus.eof ∧ r'.left = [] ∧ r'.src = [] ∧ w' = [])
           ∨ (ret = none
              ∧ (M r' < M r ∨ (out = [] ∧ (n ≤ acc.length ∨ n - acc.length < m)))
              ∧ (n < acc.length + out.length + m ∨ [] ∈ r.src))) := by
  obtain ⟨hw1, hbs1, hlb1, herr1⟩ := hinv
  have hM1le : M r1 ≤ M r := by rcases hM1 with h | ⟨h, _⟩ <;> omega
  have htake : (r1.left ++ r1.src.flatten).take r1.left.length = r1.left := List.take_left ..
  have ht0 : r1.left.length ≤ (r1.left ++ r1.src.flatten).length := by simp
  obtain ⟨i, o, e, w', heq, hi, hda, hsp, hol, hen, hnone, hein, he2, hz, hz2⟩ :=
    iconv_valid_prefix HW r1.left.length (r1.left ++ r1.src.flatten) w hw1 ht0 (n - acc.length)
  rw [htake] at heq
  have hdropi : (r1.left ++ r1.src.flatten).drop i = r1.left.drop i ++ r1.src.flatten :=
    List.drop_append_of_le_length hi
  rw [hdropi] at hda
  have hlpos : 0 < r1.left.length := List.length_pos.mpr hl1
  set r2 : RState (List (List Nat)) :=
    { r1 with goff := r1.goff + i, left := r1.left.drop i } with hr2
  have hr2src : r2.src = r1.src := rfl
  have hr2err : r2.err = r1.err := rfl
  have hr2bs : r2.bufSize = B := hbs1
  have hr2left : r2.left = r1.left.drop i := rfl
  have hr2lb : r2.left.length ≤ B := by
    rw [hr2left, List.length_drop]; omega
  have hM2 : M r2 + i = M r1 := by
    unfold M
    rw [hr2src, hr2err, hr2left, List.length_drop]
    omega
  have hinv2 : LoopInv E B r2 w' := by
    refine ⟨?_, hr2bs, hr2lb, ?_⟩
    · rw [hr2left, hr2src]; exact hda
    · rw [hr2err, hr2src]; exact herr1
  cases e with
  | none =>
    have hstep : readStepEngine E chunksRead n g r1 acc
        = readGo E chunksRead n g r2 (acc ++ o) := by
      rw [hr2]
      simp only [readStepEngine, heq]
    have hit : i = r1.left.length := hnone rfl
    have hl2nil : r2.left = [] := by
      rw [hr2left, hit, List.drop_length]
    have hM2lt : M r2 < M r := by omega
    obtain ⟨out', ret', r'', hread, w'', hinv'', hw'', hM'', hdisj''⟩ :=
      IH r2 w' (acc ++ o) hM2lt hinv2 (Or.inr (Or.inl hl2nil)) (by omega)
    refine ⟨o ++ out', ret', r'', ?_, w'', hinv'', ?_, by omega, ?_⟩
    · rw [hstep]
      rw [hread, List.append_assoc]
    · rw [hsp, hw'', List.append_assoc]
    · rcases hdisj'' with hcase | ⟨hret, _, hthird⟩
      · exact Or.inl hcase
      · refine Or.inr ⟨hret, Or.inl (by omega), ?_⟩
        rcases hthird with h | h
        · simp only [List.length_append] at h ⊢
          omega
        · rw [hr2src] at h
          exact Or.inr (hnil h)
  | some ie =>
    cases ie with
    | eilseq => exact absurd rfl hen
    | e2big =>
      have hstep : readStepEngine E chunksRead n g r1 acc
          = some (acc ++ o, none, r2) := by
        rw [hr2]
        simp only [readStepEngine, heq]
      refine ⟨o, none, r2, by rw [hstep], w', hinv2, hsp, by omega, ?_⟩
      have hthird : n < acc.length + o.length + m := by
        have := he2 rfl
        omega
      refine Or.inr ⟨rfl, ?_, Or.inl hthird⟩
      rcases Nat.eq_zero_or_pos i with hi0 | hipos
      · refine Or.inr ⟨hz hi0, ?_⟩
        rcases hz2 hi0 with h | h | ⟨_, h⟩
        · omega
        · exact absurd h (by simp)
        · exact Or.inr (by omega)
      · exact Or.inl (by omega)
    | einval =>
      obtain ⟨hKlt, htlt⟩ := hein rfl
      have hflat : r1.src.flatten ≠ [] := by
        intro h
        rw [List.length_append, h] at htlt
        simp at htlt
      have hsrcne : r1.src ≠ [] := by
        intro h; rw [h] at hflat; exact hflat rfl
      have herrnone : r1.err = none := by
        rcases herr1 with h | ⟨_, h⟩
        · exact h
        · exact absurd h hsrcne
      have hM2lt : M r2 < M r := by
        rcases hM1 with h | ⟨hle, hsb⟩
        · omega
        · rcases hsb with h | h
          · exact absurd h hsrcne
          · have : 0 < i := by omega
            omega
      have hstep : readStepEngine E chunksRead n g r1 acc
          = readGo E chunksRead n g r2 (acc ++ o) := by
        rw [hr2]
        simp only [readStepEngine, heq, herrnone]
      obtain ⟨out', ret', r'', hread, w'', hinv'', hw'', hM'', hdisj''⟩ :=
        IH r2 w' (acc ++ o) hM2lt hinv2 (Or.inr (Or.inr (hr2err.trans herrnone))) (by omega)
      refine ⟨o ++ out', ret', r'', ?_, w'', hinv'', ?_, by omega, ?_⟩
      · rw [hstep]
        rw [hread, List.append_assoc]
      · rw [hsp, hw'', List.append_assoc]
      · rcases hdisj'' with hcase | ⟨hret, _, hthird⟩
        · exact Or.inl hcase
        · refine Or.inr ⟨hret, Or.inl (by omega), ?_⟩
          rcases hthird with h | h
          · simp only [List.length_append] at h ⊢
            omega
          · rw [hr2src] at h
            exact Or.inr (hnil h)

/-- Main loop invariant theorem: from any invariant state, a `Read`
call with enough fuel satisfies `LoopConcl`. -/
theorem readGo_loop {E : Engine} {K m : Nat} (HW : EngineWF E K m) (hm : 1 ≤ m)
    {B n : Nat} (hB : K ≤ B) (hB1 : 1 ≤ B) :
    ∀ (N : Nat) (r : RState (List (List Nat))) (w : List Nat) (acc : List Nat) (f : Nat),
      M r ≤ N → LoopInv E B r w →
      (acc.length < n ∨ r.left = [] ∨ r.err = none) →
      M r + 1 ≤ f →
      LoopConcl E B n m w r acc f := by
  intro N
  induction N using Nat.strong_induction_on with
  | _ N ihN =>
    intro r w acc f hMN hinv hentry hf
    obtain ⟨hw, hbs, hlb, herr⟩ := hinv
    obtain ⟨g, rfl⟩ : ∃ g, f = g + 1 := ⟨f - 1, by omega⟩
    have hg : M r ≤ g := by omega
    have IH : ∀ (r2 : RState (List (List Nat))) (w2 acc2 : List Nat),
        M r2 < M r → LoopInv E B r2 w2 →
        (acc2.length < n ∨ r2.left = [] ∨ r2.err = none) →
        M r2 + 1 ≤ g →
        LoopConcl E B n m w2 r2 acc2 g := by
      intro r2 w2 acc2 hlt hinv2 hent2 hf2
      exact ihN (M r2) (by omega) r2 w2 acc2 g (le_refl _) hinv2 hent2 hf2
    by_cases hacc : acc.length < n
    case neg =>
      rw [not_lt] at hacc
      refine ⟨[], r.err, r, ?_, w, ⟨hw, hbs, hlb, herr⟩, by simp, le_refl _, ?_⟩
      · rw [readGo_succ, if_neg (by omega), List.append_nil]
      · rcases herr with herrn | ⟨herre, hsrce⟩
        · exact Or.inr ⟨herrn, Or.inr ⟨rfl, Or.inl hacc⟩, Or.inl (by omega)⟩
        · have hleftnil : r.left = [] := by
            rcases hentry with h | h | h
            · omega
            · exact h
            · rw [herre] at h; exact absurd h (by simp)
          have hwnil : w = [] := by
            rw [hleftnil, hsrce] at hw
            simp only [List.flatten_nil, List.append_nil, decodeAll_nil,
              Option.some.injEq] at hw
            exact hw.symm
          exact Or.inl ⟨herre, hleftnil, hsrce, hwnil⟩
    case pos =>
      rcases herr with herrn | ⟨herre, hsrce⟩
      case inr =>
        have hrefill : refill chunksRead r = r := by simp [refill, herre]
        by_cases hleft : r.left = []
        · have hwnil : w = [] := by
            rw [hleft, hsrce] at hw
            simpa [decodeAll, decodeList] using hw.symm
          refine ⟨[], some .eof, r, ?_, w, ⟨hw, hbs, hlb, Or.inr ⟨herre, hsrce⟩⟩,
            by simp, le_refl _, Or.inl ⟨rfl, hleft, hsrce, hwnil⟩⟩
          rw [readGo_succ, if_pos hacc, hrefill, if_pos (by simp [hleft]),
            herre, List.append_nil]
        · obtain ⟨out, ret, r', hstep, hrest⟩ :=
            readStepEngine_spec HW hm hB g r r w acc hacc hleft
              ⟨hw, hbs, hlb, Or.inr ⟨herre, hsrce⟩⟩
              (Or.inr ⟨le_refl _, Or.inl hsrce⟩)
              (by rw [hsrce]; simp)
              hg IH
          refine ⟨out, ret, r', ?_, hrest⟩
          rw [readGo_succ, if_pos hacc, hrefill,
            if_neg (by simp [List.isEmpty_iff, hleft, herre, isFatal]), hstep]
      case inl =>
        rcases hsrcs : r.src with _ | ⟨c, crest⟩
        · -- stream exhausted: refill records EOF
          have hrefill : refill chunksRead r
              = { r with left := r.left, err := some RStatus.eof, src := [] } := by
            simp only [refill, herrn, hsrcs, chunksRead]
            rw [List.take_of_length_le (by omega)]
            simp
          have hM1 : M { r with left := r.left, err := some RStatus.eof, src := [] } + 1
              = M r := by
            unfold M
            rw [herrn, hsrcs]
            simp
            omega
          by_cases hleft : r.left = []
          · have hwnil : w = [] := by
              rw [hleft, hsrcs] at hw
              simpa [decodeAll, decodeList] using hw.symm
            refine ⟨[], some .eof, { r with left := r.left, err := some RStatus.eof, src := [] },
              ?_, w, ⟨?_, hbs, hlb, Or.inr ⟨rfl, rfl⟩⟩, by simp, by omega,
              Or.inl ⟨rfl, hleft, rfl, hwnil⟩⟩
            · rw [readGo_succ, if_pos hacc, hrefill, if_pos (by simp [hleft]), List.append_nil]
            · simp only [hleft]
              rw [hleft, hsrcs] at hw
              simpa [decodeAll] using hw
          · obtain ⟨out, ret, r', hstep, hrest⟩ :=
              readStepEngine_spec HW hm hB g r
                { r with left := r.left, err := some RStatus.eof, src := [] } w acc hacc
                hleft
                ⟨by simpa [hsrcs] using hw, hbs, hlb, Or.inr ⟨rfl, rfl⟩⟩
                (Or.inl (by omega))
                (by simp)
                hg IH
            refine ⟨out, ret, r', ?_, hrest⟩
            rw [readGo_succ, if_pos hacc, hrefill,
              if_neg (by simp [List.isEmpty_iff, hleft, isFatal]), hstep]
        · -- stream has a chunk
          have hmin : min r.left.length r.bufSize = r.left.length :=
            Nat.min_eq_left (by omega)
          by_cases hcle : c.length ≤ r.bufSize - r.left.length
          · -- whole chunk fits in the free buffer space
            have hrefill : refill chunksRead r
                = { r with left := r.left ++ c, err := none, src := crest } := by
              simp only [refill, herrn, hsrcs, hmin, chunksRead, if_pos hcle]
              rw [List.take_of_length_le (by omega)]
            have hM1 : M { r with left := r.left ++ c, err := none, src := crest } + 1
                = M r := by
              unfold M
              rw [herrn, hsrcs]
              simp only [List.flatten_cons, List.length_append, List.length_cons]
              simp
              omega
            by_cases hleft1 : r.left ++ c = []
            · have hcnil : c = [] := by
                rcases List.append_eq_nil.mp hleft1 with ⟨_, h⟩
                exact h
              have hlnil : r.left = [] := by
                rcases List.append_eq_nil.mp hleft1 with ⟨h, _⟩
                exact h
              refine ⟨[], none, { r with left := r.left ++ c, err := none, src := crest },
                ?_, w, ⟨?_, hbs, by simpa [hleft1] using Nat.zero_le B, Or.inl rfl⟩,
                by simp, by omega,
                Or.inr ⟨rfl, Or.inl (by omega), Or.inr (by rw [hsrcs, hcnil]; simp)⟩⟩
              · rw [readGo_succ, if_pos hacc, hrefill, if_pos (by simp [hleft1]), List.append_nil]
              · simp only [hleft1]
                rw [hlnil, hsrcs] at hw
                simpa [hcnil] using hw
            · obtain ⟨out, ret, r', hstep, hrest⟩ :=
                readStepEngine_spec HW hm hB g r
                  { r with left := r.left ++ c, err := none, src := crest } w acc hacc
                  hleft1
                  ⟨by simpa [hsrcs, List.append_assoc] using hw, hbs,
                    by simp only [List.length_append]; omega, Or.inl rfl⟩
                  (Or.inl (by omega))
                  (by intro h; rw [hsrcs]; simp; right; simpa using h)
                  hg IH
              refine ⟨out, ret, r', ?_, hrest⟩
              rw [readGo_succ, if_pos hacc, hrefill,
                if_neg (by simp [List.isEmpty_iff, hleft1, isFatal]), hstep]
          · -- chunk is split: buffer filled to capacity
            set ctk := c.take (r.bufSize - r.left.length) with hctk
            set cdr := c.drop (r.bufSize - r.left.length) with hcdr
            have hsp : ctk.length = r.bufSize - r.left.length := by
              rw [hctk]
              simp only [List.length_take]
              omega
            have hcdrlen : cdr.length = c.length - (r.bufSize - r.left.length) := by
              rw [hcdr, List.length_drop]
            have hrefill : refill chunksRead r
                = { r with left := r.left ++ ctk, err := none, src := cdr :: crest } := by
              simp only [refill, herrn, hsrcs, hmin, chunksRead, if_neg hcle]
              rw [List.take_of_length_le (by omega)]
            have hlen1 : (r.left ++ ctk).length = B := by
              simp only [List.length_append, hsp]
              omega
            have hleft1 : r.left ++ ctk ≠ [] := by
              intro h
              have hh := congrArg List.length h
              rw [hlen1] at hh
              simp at hh
              omega
            have hM1 : M { r with left := r.left ++ ctk, err := none, src := cdr :: crest }
                = M r := by
              unfold M
              rw [herrn, hsrcs]
              simp only [List.flatten_cons, List.length_append, List.length_cons, hsp, hcdrlen]
              omega
            obtain ⟨out, ret, r', hstep, hrest⟩ :=
              readStepEngine_spec HW hm hB g r
                { r with left := r.left ++ ctk, err := none, src := cdr :: crest } w acc hacc
                hleft1
                ⟨by
                  simp only [List.flatten_cons, ← List.append_assoc, hctk, hcdr,
                    List.take_append_drop]
                  simpa [hsrcs] using hw,
                  hbs, le_of_eq hlen1, Or.inl rfl⟩
                (Or.inr ⟨by omega, Or.inr hlen1⟩)
                (by
                  intro h
                  rw [hsrcs]
                  rcases List.mem_cons.mp h with h | h
                  · exfalso
                    have hh := congrArg List.length h
                    simp only [List.length_nil] at hh
                    omega
                  · simp [h])
                hg IH
            refine ⟨out, ret, r', ?_, hrest⟩
            rw [readGo_succ, if_pos hacc, hrefill,
              if_neg (by simp [List.isEmpty_iff, hleft1, isFatal]), hstep]

/-- `ReadAll` correctness: from any invariant state, draining with any
per-pull output capacity `n ≥ m` (one maximal unit output) and enough
fuel yields exactly the owed decoded bytes, with no error. -/
theorem drain_correct {E : Engine} {K m : Nat} (HW : EngineWF E K m) (hm : 1 ≤ m)
    {B n : Nat} (hB : K ≤ B) (hB1 : 1 ≤ B) (hn : m ≤ n) :
    ∀ (N : Nat) (r : RState (List (List Nat))) (w : List Nat),
      M r ≤ N → LoopInv E B r w →
      ∀ (F : Nat), M r + 1 ≤ F → ∀ (D : Nat), M r + 1 ≤ D →
        drainGo E chunksRead n F D r = some (w, none) := by
  intro N
  induction N using Nat.strong_induction_on with
  | _ N ihN =>
    intro r w hMN hinv F hF D hD
    obtain ⟨d, rfl⟩ : ∃ d, D = d + 1 := ⟨D - 1, by omega⟩
    have hn1 : 1 ≤ n := by omega
    obtain ⟨out, ret, r', hread, w', hinv', hwsplit, hMle, hdisj⟩ :=
      readGo_loop HW hm hB hB1 (M r) r w [] F (le_refl _) hinv
        (Or.inl (by simpa using hn1)) hF
    rcases hdisj with ⟨hret, hlnil, hsnil, hwnil⟩ | ⟨hret, hprog, hthird⟩
    · subst hret
      simp only [drainGo, hread]
      rw [hwsplit, hwnil, List.append_nil]
      simp
    · subst hret
      have hstrict : M r' < M r := by
        rcases hprog with h | ⟨_, h | h⟩
        · exact h
        · simp at h; omega
        · simp at h; omega
      have hrec := ihN (M r') (by omega) r' w' (le_refl _) hinv' F (by omega) d (by omega)
      simp only [drainGo, hread, hrec]
      rw [hwsplit]
      simp

/-- Inversion of the toy decoder's successful outcomes. -/
theorem toyDecode_ok_inv {l : List Nat} {k : Nat} {o : List Nat}
    (h : toyDecode l = .ok k o) :
    (∃ a rest, l = a :: rest ∧ a < 128 ∧ k = 1 ∧ o = [a])
      ∨ (∃ a b rest, l = a :: b :: rest ∧ 192 ≤ a ∧ 128 ≤ b ∧ b < 192
          ∧ k = 2 ∧ o = [a, b]) := by
  cases l with
  | nil => exact absurd h (by simp [toyDecode])
  | cons a rest =>
    by_cases ha : a < 128
    · left
      refine ⟨a, rest, rfl, ha, ?_⟩
      simp only [toyDecode, if_pos ha, DecodeStep.ok.injEq] at h
      exact ⟨h.1.symm, h.2.symm⟩
    · by_cases ha2 : a < 192
      · exact absurd h (by simp [toyDecode, ha, ha2])
      · cases rest with
        | nil => exact absurd h (by simp [toyDecode, ha, ha2])
        | cons b rest' =>
          by_cases hb : 128 ≤ b ∧ b < 192
          · right
            refine ⟨a, b, rest', rfl, by omega, hb.1, hb.2, ?_⟩
            simp only [toyDecode, if_neg ha, if_neg ha2, if_pos hb,
              DecodeStep.ok.injEq] at h
            exact ⟨h.1.symm, h.2.symm⟩
          · exact absurd h (by simp [toyDecode, ha, ha2, hb])

/-- The toy engine is well-formed with unit bounds K = 2 and m = 2. -/
theorem toyE_wf : EngineWF toyE 2 2 := by
  refine ⟨?_, ?_, ?_, ?_, ?_, ?_⟩
  · intro l k o h
    rcases toyDecode_ok_inv h with ⟨a, rest, _, _, hk, _⟩ | ⟨a, b, rest, _, _, _, _, hk, _⟩ <;>
      omega
  · intro l k o h
    rcases toyDecode_ok_inv h with ⟨a, rest, hl, _, hk, _⟩ | ⟨a, b, rest, hl, _, _, _, hk, _⟩ <;>
      subst hl <;> simp only [List.length_cons] <;> omega
  · intro l k o h
    rcases toyDecode_ok_inv h with ⟨a, rest, _, _, hk, _⟩ | ⟨a, b, rest, _, _, _, _, hk, _⟩ <;>
      omega
  · intro l k o h
    rcases toyDecode_ok_inv h with ⟨a, rest, _, _, _, ho⟩ | ⟨a, b, rest, _, _, _, _, _, ho⟩ <;>
      subst ho <;> simp
  · intro l k o h s
    rcases toyDecode_ok_inv h with ⟨a, rest, hl, ha, hk, ho⟩ |
        ⟨a, b, rest, hl, ha, hb1, hb2, hk, ho⟩
    · subst hl hk ho
      show toyDecode (a :: s) = _
      simp [toyDecode, ha]
    · subst hl hk ho
      show toyDecode (a :: b :: s) = _
      have hna : ¬ a < 128 := by omega
      have hna2 : ¬ a < 192 := by omega
      simp only [toyDecode, if_neg hna, if_neg hna2,
        if_pos (⟨hb1, hb2⟩ : 128 ≤ b ∧ b < 192)]
  · intro l k o h t ht
    rcases toyDecode_ok_inv h with ⟨a, rest, hl, ha, hk, ho⟩ |
        ⟨a, b, rest, hl, ha, hb1, hb2, hk, ho⟩
    · subst hl hk
      have ht0 : t = 0 := by omega
      subst ht0
      rfl
    · subst hl hk
      rcases (by omega : t = 0 ∨ t = 1) with ht0 | ht1
      · subst ht0; rfl
      · subst ht1
        show toyDecode [a] = _
        have hna : ¬ a < 128 := by omega
        have hna2 : ¬ a < 192 := by omega
        simp [toyDecode, hna, hna2]

/-- A `Read` against a stream that keeps returning zero bytes with no
EOF, while an incomplete multibyte sequence is pending, never returns:
each loop iteration refills nothing, gets EINVAL from the engine,
and retries, leaving the state unchanged. -/
theorem stall_pull_diverges {σ : Type} (E : Engine) (rd : σ → Nat → List Nat × Sig × σ)
    (hrd : ∀ s sp, rd s sp = ([], .ok, s)) (n : Nat) (hn : 1 ≤ n) (r : RState σ)
    (hl : r.left ≠ []) (hinc : E.decodeOne r.left = .incomplete)
    (herr : r.err = none) (hlb : r.left.length ≤ r.bufSize) :
    PullDiverges E rd n r := by
  have hrefill : refill rd r = r := by
    simp only [refill, herr, hrd]
    have h1 : r.left.take r.bufSize ++ [] = r.left := by
      rw [List.append_nil, List.take_of_length_le hlb]
    rw [h1, ← herr]
  have hr2eq : ({ left := r.left.drop 0, err := none, goff := r.goff + 0, src := r.src, bufSize := r.bufSize } : RState σ) = r := by
    rw [List.drop_zero, Nat.add_zero, ← herr]
  intro fuel
  induction fuel with
  | zero => rfl
  | succ f ihf =>
    rw [readGo_succ, if_pos (by simpa using hn), hrefill,
      if_neg (by simp [List.isEmpty_iff, hl, isFatal, herr])]
    have hstep : readStepEngine E rd n f r [] = readGo E rd n f r [] := by
      simp only [readStepEngine, iconvRun_incomplete E hl hinc, herr, hr2eq,
        List.append_nil]
    rw [hstep]
    exact ihf

/-!  Claim theorems. -/

/-- C4.  Terminal Error State latching: once the Reader has latched a
fatal (non-EOF) error, every subsequent `Read` returns zero bytes and
that same error with the state unchanged; the result does not depend on
the Conversion Engine (the engine is never invoked); and end-of-stream
is not a fatal state (it does not trip the fatal-error break). -/
theorem c4_terminal_error_latching {σ : Type} (E E' : Engine)
    (rd : σ → Nat → List Nat × Sig × σ) (n fuel : Nat) (r : RState σ) (e : ZErr)
    (hl : r.err = some (.zerr e)) (hf : 1 ≤ fuel) :
    readGo E rd n fuel r [] = some ([], some (.zerr e), r)
      ∧ readGo E' rd n fuel r [] = readGo E rd n fuel r []
      ∧ isFatal (some (.zerr e)) = true ∧ isFatal (some RStatus.eof) = false := by
  obtain ⟨f, rfl⟩ : ∃ f, fuel = f + 1 := ⟨fuel - 1, by omega⟩
  have key : ∀ E₀ : Engine, readGo E₀ rd n (f + 1) r [] = some ([], some (.zerr e), r) := by
    intro E₀
    have hrefill : refill rd r = r := by simp [refill, hl]
    unfold readGo
    by_cases hn : (0 : Nat) < n
    · simp [hn, hrefill, hl, isFatal]
    · simp [hn, hl]
  exact ⟨key E, by rw [key E, key E'], rfl, rfl⟩

/-- C4 witness: a latched Reader at a concrete state. -/
theorem c4_terminal_error_latching_witness :
    readGo toyE stallRead 3 1 ⟨[7], some (.zerr .eio), 0, (), 4⟩ []
        = some ([], some (.zerr .eio), ⟨[7], some (.zerr .eio), 0, (), 4⟩)
      ∧ readGo toyE stallRead 3 1 ⟨[7], some (.zerr .eio), 0, (), 4⟩ []
          = readGo toyE stallRead 3 1 ⟨[7], some (.zerr .eio), 0, (), 4⟩ []
      ∧ isFatal (some (.zerr .eio)) = true ∧ isFatal (some RStatus.eof) = false :=
  c4_terminal_error_latching toyE toyE stallRead 3 1 _ .eio rfl (by omega)

/-- C5.  Reset restores a fresh-converter state: after any prior use,
`Reset` onto a new input source yields exactly the state `NewReader`
would produce with the same buffer size, so every subsequent `Read` and
`ReadAll` behaves identically to a brand-new converter over the same
engine (charset pair) and input. -/
theorem c5_reset_equals_fresh {σ σ' : Type} (r : RState σ) (src' : σ') (E : Engine)
    (rd : σ' → Nat → List Nat × Sig × σ') (n F D fuel : Nat) :
    r.reset src' = mkReader r.bufSize src'
      ∧ readGo E rd n fuel (r.reset src') [] = readGo E rd n fuel (mkReader r.bufSize src') []
      ∧ drainGo E rd n F D (r.reset src') = drainGo E rd n F D (mkReader r.bufSize src') :=
  ⟨rfl, rfl, rfl⟩

/-- C9.  Staged promotion is atomic: if any staged top-level name
already exists at the destination, the promotion panics at the check
loop and performs zero renames; when no name exists, all names are
checked first and only then all renamed. -/
theorem c9_promotion_atomic (dest : List Nat → Bool) (names : List (List Nat)) :
    (names.any dest = true →
        (promote dest names).2 = true
          ∧ ((promote dest names).1.all fun op => !op.isRename) = true)
      ∧ (names.any dest = false →
          promote dest names = (names.map .lstat ++ names.map .rename, false)) := by
  constructor
  · intro h
    have hc := checkLoop_conflict dest names h
    constructor
    · simp [promote, hc]
    · have := checkLoop_ops_lstat dest names
      simp [promote, hc, this]
  · intro h
    have hc := checkLoop_clean dest names h
    simp [promote, hc]

/-- C9 witness: one conflicting and one clean promotion. -/
theorem c9_promotion_atomic_witness :
    ((promote (fun x => x = [97]) [[97], [98]]).2 = true
        ∧ ((promote (fun x => x = [97]) [[97], [98]]).1.all fun op => !op.isRename) = true)
      ∧ promote (fun _ => false) [[97], [98]]
          = ([[97], [98]].map .lstat ++ [[97], [98]].map .rename, false) :=
  ⟨(c9_promotion_atomic (fun x => x = [97]) [[97], [98]]).1 (by decide),
   (c9_promotion_atomic (fun _ => false) [[97], [98]]).2 (by decide)⟩

/-- C10.  List/test mode performs no filesystem modification: with the
extract flag unset, processing an entry only logs the decoded (or
fallen-back) name; the trace contains no mutating operation and no
panic occurs. -/
theorem c10_list_mode_pure (env : SysEnv) (e : Entry) :
    unzipOne false env e = ([.logName (env.decodeRes.getD e.name)], false)
      ∧ ((unzipOne false env e).1.all fun op => !op.isMutation) = true := by
  have h : unzipOne false env e = ([.logName (env.decodeRes.getD e.name)], false) := by
    cases henv : env.decodeRes <;> simp [unzipOne, henv]
  exact ⟨h, by rw [h]; rfl⟩

/-- C8 counterexample: extracting the entry "a/b" with stored mode 0
creates the directory with mode 0o770 (owner and group
read/write/execute), not with mode 0 broadened by the execute-only
bits 0o111 as the claim states. -/
theorem c8_dir_mode_counterexample :
    (unzipOne true
        ⟨some [97, 47, 98], true, true, true, true, true, true⟩
        ⟨[97, 47, 98], 0, 0⟩).1.head?
        = some (.mkdirAll [97, 47] 0o770)
      ∧ (0o770 : Nat) ≠ 0 ||| 0o111 := by
  constructor
  · rfl
  · decide

/-- C8 amended.  When a decoded entry name has a directory component,
the directory (with missing parents) is created with mode equal to the
entry's stored mode broadened with the owner and group
read/write/execute bits (`mode | 0o770`); no world bits are added. -/
theorem c8_dir_mode_amended (env : SysEnv) (e : Entry)
    (h : (splitPath (env.decodeRes.getD e.name)).1 ≠ []) :
    (unzipOne true env e).1.head?
      = some (.mkdirAll (splitPath (env.decodeRes.getD e.name)).1 (e.mode ||| 0o770)) := by
  have hfn : (match env.decodeRes with | some s => s | none => e.name)
      = env.decodeRes.getD e.name := by
    cases env.decodeRes <;> rfl
  unfold unzipOne
  rw [hfn]
  rw [if_neg (by decide : ¬((!true) = true))]
  rw [if_pos h]
  by_cases hm : env.mkdirOk
  · by_cases hf : (splitPath (env.decodeRes.getD e.name)).2 = []
    · simp [hm, hf]
    · simp [hm, hf]
  · simp [hm]

/-- C8 amended witness. -/
theorem c8_dir_mode_amended_witness :
    (unzipOne true
        ⟨some [97, 47, 98], true, true, true, true, true, true⟩
        ⟨[97, 47, 98], 0, 0⟩).1.head?
      = some (.mkdirAll
          (splitPath ((some [97, 47, 98] : Option (List Nat)).getD [97, 47, 98])).1
          (0 ||| 0o770)) :=
  c8_dir_mode_amended ⟨some [97, 47, 98], true, true, true, true, true, true⟩
    ⟨[97, 47, 98], 0, 0⟩ (by decide)

/-- C1 counterexample: with the two-byte unit engine, decoding the
valid input [195, 169] in one big pull yields both bytes, but pulls
with output buffer size 1 can never hold the two-byte decoded unit:
the first small pulls return zero bytes with no error, the reader
reaches a state that is a fixpoint of further size-1 pulls, and
draining with size-1 pulls over a one-byte-per-read stream never
terminates (it exhausts any fuel) — so small pulls do not yield the
same bytes as the single large pull, contrary to the claim. -/
theorem c1_small_pull_counterexample :
    readGo toyE chunksRead 4 3 (mkReader 4 [[195, 169]]) []
        = some ([195, 169], some RStatus.eof, ⟨[], some RStatus.eof, 2, [], 4⟩)
      ∧ drainGo toyE chunksRead 1 5 40 (mkReader 4 [[195], [169]]) = none
      ∧ readGo toyE chunksRead 1 5 (⟨[195, 169], some RStatus.eof, 0, [], 4⟩ :
            RState (List (List Nat))) []
          = some ([], none, ⟨[195, 169], some RStatus.eof, 0, [], 4⟩) := by
  refine ⟨by decide, by decide, by decide⟩

/-- C1 amended.  Chunking invariance holds with the small pulls' output
buffer sized to hold one decoded multibyte unit (size `m`, the largest
unit output; this is size 1 exactly when every decoded unit is a single
byte): for every valid input, a single pull with a buffer larger than
the whole result yields exactly the decoded bytes with end-of-stream,
and pulling with buffers of size `m` over a stream that delivers one
byte per read (splitting multibyte sequences at every boundary) drains
to exactly the same decoded bytes with no error. -/
theorem c1_chunking_invariance {E : Engine} {K m B n₁ : Nat} (HW : EngineWF E K m)
    (hm : 1 ≤ m) (hB : K ≤ B) (hB1 : 1 ≤ B)
    (bs w : List Nat) (hv : decodeAll E bs = some w) (hbs : bs ≠ [])
    (hn₁ : w.length + m ≤ n₁) :
    (∃ f r', readGo E chunksRead n₁ f (mkReader B [bs]) [] = some (w, some RStatus.eof, r'))
      ∧ ∃ F D, drainGo E chunksRead m F D (mkReader B (bs.map fun b => [b]))
          = some (w, none) := by
  have hn1 : 1 ≤ n₁ := by omega
  constructor
  · have hinv0 : LoopInv E B (mkReader B [bs]) w := by
      refine ⟨?_, rfl, Nat.zero_le B, Or.inl rfl⟩
      show decodeAll E ([] ++ List.flatten [bs]) = some w
      simpa using hv
    obtain ⟨out, ret, r', hread, w', hinv', hwsplit, hMle, hdisj⟩ :=
      readGo_loop HW hm hB hB1 (M (mkReader B [bs])) (mkReader B [bs]) w []
        (M (mkReader B [bs]) + 1) (le_refl _) hinv0 (Or.inl (by simpa using hn1)) (le_refl _)
    rcases hdisj with ⟨hret, _, _, hwnil⟩ | ⟨hret, hprog, hthird⟩
    · refine ⟨M (mkReader B [bs]) + 1, r', ?_⟩
      subst hret
      have hwout : w = out := by rw [hwsplit, hwnil, List.append_nil]
      rw [hwout]
      simpa using hread
    · exfalso
      rcases hthird with h | h
      · have houtw : out.length ≤ w.length := by rw [hwsplit]; simp
        have h0 : ([] : List Nat).length = 0 := rfl
        omega
      · exact hbs (List.eq_of_mem_singleton h).symm
  · have hinv1 : LoopInv E B (mkReader B (bs.map fun b => [b])) w := by
      refine ⟨?_, rfl, Nat.zero_le B, Or.inl rfl⟩
      show decodeAll E ([] ++ List.flatten (bs.map fun b => [b])) = some w
      rw [List.nil_append, flatten_map_singleton]
      exact hv
    exact ⟨M (mkReader B (bs.map fun b => [b])) + 1, M (mkReader B (bs.map fun b => [b])) + 1,
      drain_correct HW hm hB hB1 (le_refl m) (M (mkReader B (bs.map fun b => [b])))
        (mkReader B (bs.map fun b => [b])) w (le_refl _) hinv1 _ (le_refl _) _ (le_refl _)⟩

/-- C1 amended witness: the ASCII byte 65 through the toy engine. -/
theorem c1_chunking_invariance_witness :
    (∃ f r', readGo toyE chunksRead 3 f (mkReader 4 [[65]]) []
        = some ([65], some RStatus.eof, r'))
      ∧ ∃ F D, drainGo toyE chunksRead 2 F D (mkReader 4 ([65].map fun b => [b]))
          = some ([65], none) :=
  c1_chunking_invariance toyE_wf (by omega) (by omega) (by omega) [65] [65]
    (by decide) (by decide) (by decide)

/-- C2.  When the output window is too small for the next multibyte
unit (E2BIG), and in fact for every pull with however small a positive
output buffer over valid input, the pull returns the bytes produced so
far with no error, no error is latched, no pending input is lost, and
a subsequent drain with adequate output space yields exactly the
remaining decoded bytes — continuation is exact. -/
theorem c2_e2big_no_data_loss {E : Engine} {K m B n n' : Nat} (HW : EngineWF E K m)
    (hm : 1 ≤ m) (hB : K ≤ B) (hB1 : 1 ≤ B) (hn : 1 ≤ n) (hn' : m ≤ n')
    (r : RState (List (List Nat))) (w : List Nat) (hinv : LoopInv E B r w) :
    (∀ {σ : Type} (rd : σ → Nat → List Nat × Sig × σ) (g : Nat) (r1 : RState σ)
        (acc : List Nat) (i : Nat) (o : List Nat),
        iconvRun E r1.left (n - acc.length) = (i, o, some .e2big) →
        readStepEngine E rd n g r1 acc
          = some (acc ++ o, none, { r1 with goff := r1.goff + i, left := r1.left.drop i }))
      ∧ ∃ f out ret r', readGo E chunksRead n f r [] = some (out, ret, r')
        ∧ (∀ e, ret ≠ some (RStatus.zerr e))
        ∧ ∃ F D w', drainGo E chunksRead n' F D r' = some (w', none) ∧ w = out ++ w' := by
  constructor
  · intro σ rd g r1 acc i o hic
    simp only [readStepEngine, hic]
  · obtain ⟨out, ret, r', hread, w', hinv', hwsplit, hMle, hdisj⟩ :=
      readGo_loop HW hm hB hB1 (M r) r w [] (M r + 1) (le_refl _) hinv
        (Or.inl (by simpa using hn)) (le_refl _)
    refine ⟨M r + 1, out, ret, r', by simpa using hread, ?_, ?_⟩
    · intro e
      rcases hdisj with ⟨hret, _⟩ | ⟨hret, _⟩ <;> rw [hret] <;> simp
    · exact ⟨M r' + 1, M r' + 1, w',
        drain_correct HW hm hB hB1 hn' (M r') r' w' (le_refl _) hinv' _ (le_refl _) _
          (le_refl _),
        hwsplit⟩

/-- C2 witness: a two-byte unit pulled through a one-byte output
window — the pull returns zero bytes and no error, and the follow-up
drain recovers both decoded bytes. -/
theorem c2_e2big_no_data_loss_witness :
    (∀ {σ : Type} (rd : σ → Nat → List Nat × Sig × σ) (g : Nat) (r1 : RState σ)
        (acc : List Nat) (i : Nat) (o : List Nat),
        iconvRun toyE r1.left (1 - acc.length) = (i, o, some .e2big) →
        readStepEngine toyE rd 1 g r1 acc
          = some (acc ++ o, none, { r1 with goff := r1.goff + i, left := r1.left.drop i }))
      ∧ ∃ f out ret r', readGo toyE chunksRead 1 f (mkReader 4 [[195, 169]]) []
          = some (out, ret, r')
        ∧ (∀ e, ret ≠ some (RStatus.zerr e))
        ∧ ∃ F D w', drainGo toyE chunksRead 2 F D r' = some (w', none)
          ∧ [195, 169] = out ++ w' :=
  c2_e2big_no_data_loss (B := 4) toyE_wf (by omega) (by omega) (by omega) (by omega)
    (by omega) (mkReader 4 [[195, 169]]) [195, 169]
    ⟨by decide, rfl, by decide, Or.inl rfl⟩

/-- C3.  Incomplete-sequence classification: (a) when the engine
reports an incomplete sequence and the stream has truly ended (EOF
latched, pending bytes form a bare unit prefix), the pull latches the
fatal truncated-sequence error `Einval` carrying the offending window
and offset, and returns it with zero bytes; (b) when the sequence is
merely split across reads — any split point of a valid input, the
continuation arriving in a later read — draining decodes the full
input correctly with no error. -/
theorem c3_incomplete_classification {E : Engine} {K m B n : Nat} (HW : EngineWF E K m)
    (hm : 1 ≤ m) (hB : K ≤ B) (hB1 : 1 ≤ B) (hn : m ≤ n) :
    (∀ {σ : Type} (rd : σ → Nat → List Nat × Sig × σ) (r : RState σ) (fuel : Nat),
        r.err = some RStatus.eof → r.left ≠ [] → E.decodeOne r.left = .incomplete →
        2 ≤ fuel →
        ∃ r', readGo E rd n fuel r []
            = some ([], some (.zerr (.einval (capped r.left) r.goff)), r')
          ∧ r'.err = some (.zerr (.einval (capped r.left) r.goff)))
      ∧ (∀ (bs w : List Nat) (j : Nat), decodeAll E bs = some w →
          ∃ F D, drainGo E chunksRead n F D (mkReader B [bs.take j, bs.drop j])
            = some (w, none)) := by
  have hn1 : 1 ≤ n := by omega
  constructor
  · intro σ rd r fuel herr hl hinc hfuel
    obtain ⟨f, rfl⟩ : ∃ f, fuel = f + 1 + 1 := ⟨fuel - 2, by omega⟩
    have hrefill : refill rd r = r := by simp [refill, herr]
    rw [readGo_succ, if_pos (by simpa using hn1), hrefill,
      if_neg (by simp [List.isEmpty_iff, hl, isFatal, herr])]
    have hr2eq : ({ left := r.left, err := some RStatus.eof, goff := r.goff, src := r.src, bufSize := r.bufSize } : RState σ) = r := by
      rw [← herr]
    have hstep : readStepEngine E rd n (f + 1) r []
        = readGo E rd n (f + 1) (r.fail (.einval (capped r.left) r.goff)) [] := by
      simp only [readStepEngine, iconvRun_incomplete E hl hinc, List.drop_zero,
        Nat.add_zero, herr, hr2eq, List.append_nil]
    rw [hstep]
    have hferr : (r.fail (.einval (capped r.left) r.goff)).err
        = some (.zerr (.einval (capped r.left) r.goff)) := by
      simp [RState.fail, herr]
    have hrefill2 : refill rd (r.fail (.einval (capped r.left) r.goff))
        = r.fail (.einval (capped r.left) r.goff) := by
      simp [refill, hferr]
    rw [readGo_succ, if_pos (by simpa using hn1), hrefill2,
      if_pos (by simp [isFatal, hferr]), hferr]
    exact ⟨r.fail (.einval (capped r.left) r.goff), rfl, hferr⟩
  · intro bs w j hv
    have hinv : LoopInv E B (mkReader B [bs.take j, bs.drop j]) w := by
      refine ⟨?_, rfl, Nat.zero_le B, Or.inl rfl⟩
      show decodeAll E ([] ++ List.flatten [bs.take j, bs.drop j]) = some w
      simp only [List.nil_append, List.flatten_cons, List.flatten_nil, List.append_nil,
        List.take_append_drop]
      exact hv
    exact ⟨M (mkReader B [bs.take j, bs.drop j]) + 1, M (mkReader B [bs.take j, bs.drop j]) + 1,
      drain_correct HW hm hB hB1 hn (M (mkReader B [bs.take j, bs.drop j]))
        (mkReader B [bs.take j, bs.drop j]) w (le_refl _) hinv _ (le_refl _) _ (le_refl _)⟩

/-- C3 witness: a bare lead byte at true end-of-stream latches the
truncated-sequence error at the right window and offset; the same unit
split across two reads decodes cleanly. -/
theorem c3_incomplete_classification_witness :
    (∃ r', readGo toyE stallRead 2 2 (⟨[195], some RStatus.eof, 7, (), 4⟩ : RState Unit) []
        = some ([], some (.zerr (.einval (capped [195]) 7)), r')
      ∧ r'.err = some (.zerr (.einval (capped [195]) 7)))
      ∧ ∃ F D, drainGo toyE chunksRead 2 F D
          (mkReader 4 [[65, 195, 169].take 2, [65, 195, 169].drop 2])
          = some ([65, 195, 169], none) :=
  ⟨(c3_incomplete_classification (B := 4) toyE_wf (by omega) (by omega) (by omega)
      (by omega)).1 stallRead ⟨[195], some RStatus.eof, 7, (), 4⟩ 2 rfl (by decide) rfl
      (by omega),
   (c3_incomplete_classification (B := 4) toyE_wf (by omega) (by omega) (by omega)
      (by omega)).2 [65, 195, 169] [65, 195, 169] 2 (by decide)⟩

/-- C6 counterexample: with an incomplete sequence pending, a pull
against a stream that returns zero bytes without EOF does not break out
and return — it retries forever.  At the concrete state below the
`Read` loop never finishes for any fuel, and in particular makes no
progress within 40 iterations. -/
theorem c6_stall_counterexample :
    PullDiverges toyE stallRead 5 (⟨[195], none, 0, (), 4⟩ : RState Unit)
      ∧ readGo toyE stallRead 5 40 (⟨[195], none, 0, (), 4⟩ : RState Unit) [] = none := by
  have h := stall_pull_diverges toyE stallRead (fun _ _ => rfl) 5 (by omega)
    ⟨[195], none, 0, (), 4⟩ (by decide) rfl rfl (by decide)
  exact ⟨h, h 40⟩

/-- C6 amended.  A refill that returns zero new bytes without
end-of-stream does NOT break the conversion loop when an incomplete
multibyte sequence is pending: the loop retries the read on every
iteration, so against a stream that stalls forever the pull never
returns.  Only when the pending buffer is empty does a zero-byte
refill exit the loop (returning the bytes produced so far with no
error). -/
theorem c6_stalled_refill_amended {σ : Type} (E : Engine)
    (rd : σ → Nat → List Nat × Sig × σ) (hrd : ∀ s sp, rd s sp = ([], .ok, s))
    (n : Nat) (hn : 1 ≤ n) (r : RState σ) :
    (r.left ≠ [] → E.decodeOne r.left = .incomplete → r.err = none →
        r.left.length ≤ r.bufSize → PullDiverges E rd n r)
      ∧ (r.left = [] → r.err = none →
          ∀ f, readGo E rd n (f + 1) r [] = some ([], none, r)) := by
  constructor
  · intro hl hinc herr hlb
    exact stall_pull_diverges E rd hrd n hn r hl hinc herr hlb
  · intro hl herr f
    have hrefill : refill rd r = r := by
      simp only [refill, herr, hrd]
      rw [hl, List.take_nil, List.nil_append, ← herr, ← hl]
    rw [readGo_succ, if_pos (by simpa using hn), hrefill, if_pos (by simp [hl]), herr]

/-- C6 amended witness. -/
theorem c6_stalled_refill_amended_witness :
    ((⟨[200], none, 3, (), 8⟩ : RState Unit).left ≠ [] →
        toyE.decodeOne (⟨[200], none, 3, (), 8⟩ : RState Unit).left = .incomplete →
        (⟨[200], none, 3, (), 8⟩ : RState Unit).err = none →
        (⟨[200], none, 3, (), 8⟩ : RState Unit).left.length
          ≤ (⟨[200], none, 3, (), 8⟩ : RState Unit).bufSize →
        PullDiverges toyE stallRead 3 (⟨[200], none, 3, (), 8⟩ : RState Unit))
      ∧ ((⟨[200], none, 3, (), 8⟩ : RState Unit).left = [] →
          (⟨[200], none, 3, (), 8⟩ : RState Unit).err = none →
          ∀ f, readGo toyE stallRead 3 (f + 1) (⟨[200], none, 3, (), 8⟩ : RState Unit) []
            = some ([], none, ⟨[200], none, 3, (), 8⟩)) :=
  c6_stalled_refill_amended toyE stallRead (fun _ _ => rfl) 3 (by omega)
    ⟨[200], none, 3, (), 8⟩

/-- C7 counterexample: an entry whose name fails to decode is processed
without any panic — the raw name is used as a fallback and extraction
completes normally (and in list mode the raw name is logged), whereas
the claim says a decode failure terminates the process. -/
theorem c7_decode_failure_counterexample :
    unzipOne true ⟨none, true, true, true, true, true, true⟩ ⟨[200], 6, 9⟩
        = ([.createFile [200], .copyData [200], .chmodOp [200] 6, .chtimesOp [200] 9], false)
      ∧ unzipOne false ⟨none, true, true, true, true, true, true⟩ ⟨[200], 6, 9⟩
          = ([.logName [200]], false) := by
  constructor <;> rfl

/-- C7 amended.  Unrecoverable errors while extracting an entry
(mkdir, open, create, copy failures) panic, terminating the process
with a non-zero status; chmod/chtimes (permission/timestamp
restoration) failures never panic; a name-decoding failure is NOT
fatal in the x/text-based variants — the entry is processed exactly as
if the name had decoded to its raw bytes; only the zniconv-based
variant panics on a name-decoding failure. -/
theorem c7_error_severity_amended (env : SysEnv) (e : Entry) (fn raw : List Nat)
    (ext : Bool) :
    (env.openOk = false → (extractFile env e fn).2 = true)
      ∧ (env.openOk = true → env.createOk = false → (extractFile env e fn).2 = true)
      ∧ (env.openOk = true → env.createOk = true → env.copyOk = false →
          (extractFile env e fn).2 = true)
      ∧ (env.openOk = true → env.createOk = true → env.copyOk = true →
          (extractFile env e fn).2 = false)
      ∧ ((splitPath (env.decodeRes.getD e.name)).1 ≠ [] → env.mkdirOk = false →
          (unzipOne true env e).2 = true)
      ∧ unzipOne ext { env with decodeRes := none } e
          = unzipOne ext { env with decodeRes := some e.name } e
      ∧ convertName none raw = (raw, true) := by
  refine ⟨?_, ?_, ?_, ?_, ?_, rfl, rfl⟩
  · intro h; simp [extractFile, h]
  · intro h1 h2; simp [extractFile, h1, h2]
  · intro h1 h2 h3; simp [extractFile, h1, h2, h3]
  · intro h1 h2 h3
    by_cases h4 : env.chmodOk <;> by_cases h5 : env.chtimesOk <;>
      simp [extractFile, h1, h2, h3, h4, h5]
  · intro hd hm
    have hfn : (match env.decodeRes with | some s => s | none => e.name)
        = env.decodeRes.getD e.name := by
      cases env.decodeRes <;> rfl
    unfold unzipOne
    rw [hfn]
    rw [if_neg (by decide : ¬((!true) = true))]
    rw [if_pos hd]
    simp [hm]

/-- C7 amended witness. -/
theorem c7_error_severity_amended_witness :
    ((⟨some [98], true, false, true, true, true, true⟩ : SysEnv).openOk = false →
        (extractFile ⟨some [98], true, false, true, true, true, true⟩ ⟨[98], 6, 9⟩ [98]).2
          = true)
      ∧ ((⟨some [98], true, false, true, true, true, true⟩ : SysEnv).openOk = true →
          (⟨some [98], true, false, true, true, true, true⟩ : SysEnv).createOk = false →
          (extractFile ⟨some [98], true, false, true, true, true, true⟩ ⟨[98], 6, 9⟩ [98]).2
            = true)
      ∧ ((⟨some [98], true, false, true, true, true, true⟩ : SysEnv).openOk = true →
          (⟨some [98], true, false, true, true, true, true⟩ : SysEnv).createOk = true →
          (⟨some [98], true, false, true, true, true, true⟩ : SysEnv).copyOk = false →
          (extractFile ⟨some [98], true, false, true, true, true, true⟩ ⟨[98], 6, 9⟩ [98]).2
            = true)
      ∧ ((⟨some [98], true, false, true, true, true, true⟩ : SysEnv).openOk = true →
          (⟨some [98], true, false, true, true, true, true⟩ : SysEnv).createOk = true →
          (⟨some [98], true, false, true, true, true, true⟩ : SysEnv).copyOk = true →
          (extractFile ⟨some [98], true, false, true, true, true, true⟩ ⟨[98], 6, 9⟩ [98]).2
            = false)
      ∧ ((splitPath ((⟨some [98], true, false, true, true, true, true⟩ : SysEnv).decodeRes.getD
            (⟨[98], 6, 9⟩ : Entry).name)).1 ≠ [] →
          (⟨some [98], true, false, true, true, true, true⟩ : SysEnv).mkdirOk = false →
          (unzipOne true ⟨some [98], true, false, true, true, true, true⟩ ⟨[98], 6, 9⟩).2
            = true)
      ∧ unzipOne true { (⟨some [98], true, false, true, true, true, true⟩ : SysEnv) with
            decodeRes := none } ⟨[98], 6, 9⟩
          = unzipOne true { (⟨some [98], true, false, true, true, true, true⟩ : SysEnv) with
              decodeRes := some (⟨[98], 6, 9⟩ : Entry).name } ⟨[98], 6, 9⟩
      ∧ convertName none [99] = ([99], true) :=
  c7_error_severity_amended ⟨some [98], true, false, true, true, true, true⟩ ⟨[98], 6, 9⟩
    [98] [99] true

end Znunzip
